import Mathlib

/-!
Verification of the duplicate-detector engine
(`LocalArchive/PlatypusUtils/Tools/tools/dupe_detector.py`).

The Python source is shallowly embedded below.  External collaborators
(directory traversal, the `fpcalc` audio-fingerprint tool, OpenCV's video
decoding / grayscale conversion / resizing, the SHA-256 primitive) are
modelled as explicit inputs: each Lean function receives the collaborator's
outcome for the file at hand.  Python machine behaviour is translated
explicitly: `(value << 1) | bit` on unbounded Python ints is
`(v <<< 1) ||| b.toNat`; the float threshold `c >= len/2` is the exact
integer comparison `len ≤ 2*c`; an uncaught `OSError` is the `Except.error`
branch; truthiness of an `Optional[str]` is `none`/empty-string falsity.
-/

/-! ## Bit packing (the `value = (value << 1) | int(bool(bit))` loop)

Both `frame_ahash` (lines 102-105) and `combine_hashes_hash_majority`
(lines 117-119) accumulate a most-significant-bit-first integer with the
same shift-or loop; `packBits` is that loop. -/

/-- MSB-first accumulation loop shared by `frame_ahash` and
`combine_hashes_hash_majority`: `value = (value << 1) | int(bool(bit))`. -/
def packBits (bits : List Bool) : Nat :=
  bits.foldl (fun v b => (v <<< 1) ||| b.toNat) 0

theorem shiftOr_eq (v : Nat) (b : Bool) : (v <<< 1) ||| b.toNat = 2 * v + b.toNat := by
  rw [Nat.shiftLeft_eq, pow_one]
  cases b
  · simp [Nat.mul_comm]
  · show v * 2 ||| 1 = 2 * v + 1
    rw [Nat.mul_comm]
    apply Nat.eq_of_testBit_eq
    intro k
    cases k with
    | zero =>
      rw [Nat.testBit_lor]
      simp [Nat.testBit_zero, Nat.mul_add_mod, Nat.mul_mod_right]
    | succ k =>
      rw [Nat.testBit_lor, Nat.testBit_succ, Nat.testBit_succ, Nat.testBit_succ]
      have h1 : (1 : Nat) / 2 = 0 := by norm_num
      have h2 : (2 * v) / 2 = v := by omega
      have h3 : (2 * v + 1) / 2 = v := by omega
      rw [h1, h2, h3]
      simp [Nat.zero_testBit]

theorem packBits_append_singleton (bits : List Bool) (b : Bool) :
    packBits (bits ++ [b]) = 2 * packBits bits + b.toNat := by
  simp [packBits, List.foldl_append, shiftOr_eq]

theorem packBits_lt (bits : List Bool) : packBits bits < 2 ^ bits.length := by
  induction bits using List.reverseRecOn with
  | nil => simp [packBits]
  | append_singleton bits b ih =>
    rw [packBits_append_singleton]
    have hb : b.toNat ≤ 1 := Bool.toNat_le b
    simp only [List.length_append, List.length_singleton, pow_succ]
    omega

theorem packBits_testBit (bits : List Bool) (j : Nat) (hj : j < bits.length) :
    (packBits bits).testBit j = bits.getD (bits.length - 1 - j) false := by
  induction bits using List.reverseRecOn generalizing j with
  | nil => simp at hj
  | append_singleton bits b ih =>
    rw [packBits_append_singleton]
    rcases j with _ | k
    · have hmod : (2 * packBits bits + b.toNat) % 2 = b.toNat := by
        have : b.toNat ≤ 1 := Bool.toNat_le b
        omega
      have hidx : bits.length + 1 - 1 - 0 = bits.length := by omega
      rw [Nat.testBit_zero, hmod]
      rw [List.length_append, List.length_singleton, hidx,
        List.getD_append_right bits [b] false bits.length (le_refl _)]
      simp
    · have hk : k < bits.length := by
        simp only [List.length_append, List.length_singleton] at hj
        omega
      have hdiv : (2 * packBits bits + b.toNat) / 2 = packBits bits := by
        have : b.toNat ≤ 1 := Bool.toNat_le b
        omega
      rw [Nat.testBit_succ, hdiv, ih k hk]
      have hidx : bits.length + 1 - 1 - (k + 1) = bits.length - 1 - k := by omega
      rw [List.length_append, List.length_singleton, hidx]
      have hlt : bits.length - 1 - k < bits.length := by omega
      rw [List.getD_append bits [b] false _ hlt]

/-- Element lookup in the row-major flattening of a grid whose rows all have
length `n`. -/
theorem getD_flatten_grid {α : Type} (n : Nat) :
    ∀ (ls : List (List α)) (r c : Nat) (d : α), (∀ l ∈ ls, l.length = n) →
      r < ls.length → c < n →
      (ls.flatten).getD (r * n + c) d = (ls.getD r []).getD c d := by
  intro ls
  induction ls with
  | nil => intro r c d _ hr _; simp at hr
  | cons row rest ih =>
    intro r c d hlen hr hc
    have hrow : row.length = n := hlen row (by simp)
    rcases r with _ | r'
    · simp only [Nat.zero_mul, Nat.zero_add, List.flatten_cons, List.getD_cons_zero]
      exact List.getD_append row rest.flatten d c (by omega)
    · have hidx : (r' + 1) * n + c = row.length + (r' * n + c) := by
        rw [hrow, Nat.succ_mul]; omega
      rw [List.flatten_cons, hidx,
        List.getD_append_right row (rest.flatten) d _ (by omega)]
      have : row.length + (r' * n + c) - row.length = r' * n + c := by omega
      rw [this]
      have hr' : r' < rest.length := by simpa using hr
      have := ih r' c d (fun l hl => hlen l (by simp [hl])) hr' hc
      simpa using this

theorem length_flatten_grid {α : Type} (n : Nat) :
    ∀ (ls : List (List α)), (∀ l ∈ ls, l.length = n) →
      (ls.flatten).length = ls.length * n := by
  intro ls
  induction ls with
  | nil => simp
  | cons row rest ih =>
    intro hlen
    have hrow : row.length = n := hlen row (by simp)
    simp only [List.flatten_cons, List.length_append, List.length_cons, hrow,
      ih (fun l hl => hlen l (by simp [hl]))]
    ring

/-! ## Extension sets and file finding (lines 38-64) -/

/-- Recognized audio extensions (line 38). -/
def AUDIO_EXTS : List String :=
  [".mp3", ".flac", ".wav", ".m4a", ".aac", ".ogg", ".wma"]

/-- Recognized video extensions (line 39). -/
def VIDEO_EXTS : List String :=
  [".mp4", ".mkv", ".avi", ".mov", ".wmv", ".webm", ".flv", ".m4v"]

/-- One directory entry, as the traversal collaborator (`rglob`/`iterdir`)
reports it: its path, whether it is a regular file, and its extension
(`Path.suffix`). -/
structure FileEntry where
  path : String
  isFile : Bool
  suffix : String
deriving DecidableEq, Repr

/-- Allowed-extension set built by `find_files` (lines 50-55). -/
def allowed_exts (kinds : List String) (custom_exts : List String) : List String :=
  (if ("audio") ∈ kinds then AUDIO_EXTS else []) ++
  (if ("video") ∈ kinds then VIDEO_EXTS else []) ++
  custom_exts.map (fun e => if e.startsWith (".") then e.toLower else ("." ++ e.toLower))

/-- Filtering step of `find_files` (line 63): keep regular files whose
lowercased suffix lies in the allowed set, except that an empty allowed set
(falsy in Python) disables extension filtering entirely.  The traversal
itself is the external collaborator producing `entries`. -/
def find_files (entries : List FileEntry) (kinds : List String)
    (custom_exts : List String) : List FileEntry :=
  let exts := allowed_exts kinds custom_exts
  entries.filter (fun p => p.isFile && (exts.isEmpty || exts.contains p.suffix.toLower))

/-- C10: with no kind contributing extensions and no custom extensions, the
allowed set is empty and `find_files` keeps every regular file. -/
theorem find_files_no_exts_keeps_all_regular_files (entries : List FileEntry)
    (kinds custom_exts : List String)
    (ha : ("audio") ∉ kinds) (hv : ("video") ∉ kinds) (hc : custom_exts = []) :
    find_files entries kinds custom_exts = entries.filter (fun p => p.isFile) := by
  have hexts : allowed_exts kinds custom_exts = [] := by
    simp [allowed_exts, ha, hv, hc]
  simp [find_files, hexts]

/-- Witness for C10 at a concrete directory listing. -/
theorem find_files_no_exts_keeps_all_regular_files_witness :
    find_files [⟨"a.txt", true, ".txt"⟩, ⟨"sub", false, ""⟩, ⟨"b.bin", true, ".bin"⟩]
        ["image"] [] =
      [⟨"a.txt", true, ".txt"⟩, ⟨"b.bin", true, ".bin"⟩] := by
  rw [find_files_no_exts_keeps_all_regular_files _ _ _ (by decide) (by decide) rfl]
  rfl

/-! ## Perceptual frame hasher (lines 97-105) -/

/-- Comparison row of `diff = resized[:, 1:] > resized[:, :-1]` (line 100) for
one row of the resized grid: bit `c` is `row[c+1] > row[c]`, i.e. the right
pixel strictly exceeds the left pixel. -/
def rowBits (row : List Nat) : List Bool :=
  (List.range (row.length - 1)).map (fun c => decide (row.getD (c + 1) 0 > row.getD c 0))

/-- Frame hasher core (lines 100-105), applied to the output of the external
grayscale-conversion and resize collaborators (lines 98-99): a grid of
`hash_size` rows of `hash_size + 1` pixel intensities.  Bits are flattened
row-major and packed most-significant-bit first. -/
def frame_ahash (resized : List (List Nat)) : Nat :=
  packBits ((resized.map rowBits).flatten)

/-- Modelled from the spec claim's wording for comparison: bit `1` when the
LEFT pixel's intensity is strictly greater than the RIGHT pixel's. -/
def rowBits_leftGreater (row : List Nat) : List Bool :=
  (List.range (row.length - 1)).map (fun c => decide (row.getD c 0 > row.getD (c + 1) 0))

/-- Modelled from the spec claim's wording: the frame hash with the
left-greater bit rule. -/
def frame_ahash_leftGreater (resized : List (List Nat)) : Nat :=
  packBits ((resized.map rowBits_leftGreater).flatten)

/-- C1 counterexample: on the 1-row, 2-pixel resized grid `[[0, 1]]`
(`hash_size = 1`) the code emits bit 1 because the RIGHT pixel exceeds the
left one, while the claim's left-greater rule emits 0. -/
theorem frame_ahash_left_greater_counterexample :
    frame_ahash [[0, 1]] = 1 ∧ frame_ahash_leftGreater [[0, 1]] = 0 ∧
      frame_ahash [[0, 1]] ≠ frame_ahash_leftGreater [[0, 1]] := by decide

/-- C1 (amended): for a resized grid of `n` rows of `n + 1` pixels, the packed
hash's bit at MSB-first position `r * n + c` (that is, `testBit` index
`n * n - 1 - (r * n + c)`) is 1 exactly when the RIGHT pixel of pair `c` in
row `r` strictly exceeds the LEFT pixel. -/
theorem frame_ahash_bit (resized : List (List Nat)) (n r c : Nat)
    (hrows : resized.length = n)
    (hcols : ∀ row ∈ resized, row.length = n + 1)
    (hr : r < n) (hc : c < n) :
    (frame_ahash resized).testBit (n * n - 1 - (r * n + c)) =
      decide ((resized.getD r []).getD (c + 1) 0 > (resized.getD r []).getD c 0) := by
  have hrc : r * n + c < n * n := by
    have h1 : r * n + c < (r + 1) * n := by
      rw [Nat.succ_mul]; exact Nat.add_lt_add_left hc _
    have h2 : (r + 1) * n ≤ n * n := mul_le_mul_right' (by omega : r + 1 ≤ n) n
    exact lt_of_lt_of_le h1 h2
  have hlens : ∀ l ∈ resized.map rowBits, l.length = n := by
    intro l hl
    rcases List.mem_map.mp hl with ⟨row, hrow, rfl⟩
    have hcol := hcols row hrow
    simp [rowBits, hcol]
  have hflatlen : ((resized.map rowBits).flatten).length = n * n := by
    rw [length_flatten_grid n _ hlens, List.length_map, hrows]
  have hpos : 0 < n * n := Nat.pos_of_ne_zero (by omega)
  have hj : n * n - 1 - (r * n + c) < ((resized.map rowBits).flatten).length := by
    rw [hflatlen]
    exact lt_of_le_of_lt (Nat.sub_le _ _) (Nat.sub_lt hpos one_pos)
  rw [frame_ahash, packBits_testBit _ _ hj, hflatlen]
  have hidx : n * n - 1 - (n * n - 1 - (r * n + c)) = r * n + c :=
    Nat.sub_sub_self (Nat.le_sub_one_of_lt hrc)
  rw [hidx]
  have hrmap : r < (resized.map rowBits).length := by
    rw [List.length_map, hrows]; exact hr
  rw [getD_flatten_grid n (resized.map rowBits) r c false hlens hrmap hc]
  have hmap : (resized.map rowBits).getD r [] = rowBits (resized.getD r []) := by
    rw [List.getD_eq_getElem _ _ hrmap, List.getElem_map,
      List.getD_eq_getElem _ _ (by rw [hrows]; exact hr)]
  rw [hmap]
  have hrowmem : resized.getD r [] ∈ resized := by
    rw [List.getD_eq_getElem _ _ (by rw [hrows]; exact hr)]
    exact List.getElem_mem _
  have hrowlen : (resized.getD r []).length = n + 1 := hcols _ hrowmem
  have hcrange : c < (List.range ((resized.getD r []).length - 1)).length := by
    rw [List.length_range, hrowlen]; simpa using hc
  rw [rowBits, List.getD_eq_getElem _ _ (by rw [List.length_map]; exact hcrange),
    List.getElem_map, List.getElem_range]

/-- Witness for C1 (amended) at a concrete 1×2 grid. -/
theorem frame_ahash_bit_witness :
    (frame_ahash [[0, 1]]).testBit (1 * 1 - 1 - (0 * 1 + 0)) =
      decide ((([[0, 1]] : List (List Nat)).getD 0 []).getD (0 + 1) 0 >
        (([[0, 1]] : List (List Nat)).getD 0 []).getD 0 0) :=
  frame_ahash_bit [[0, 1]] 1 0 0 (by decide) (by decide) (by decide) (by decide)

/-! ## Majority-vote hash combiner (lines 108-120) -/

/-- Per-bit set test `h & (1 << pos)` of line 114, as a Boolean. -/
def bitSelected (h : Nat) (pos : Nat) : Bool := h &&& (1 <<< pos) != 0

theorem bitSelected_eq_testBit (h pos : Nat) : bitSelected h pos = h.testBit pos := by
  unfold bitSelected
  rw [Nat.shiftLeft_eq, one_mul, Nat.and_two_pow]
  cases hb : h.testBit pos <;> simp [hb]

/-- Majority-vote hash combiner (lines 108-120).  `counts[i]` counts inputs
whose bit `hash_bits - 1 - i` is set; the Python float threshold
`c >= len(hashes) / 2` is rendered as the exact integer test
`len(hashes) ≤ 2 * c`, which is equivalent for these magnitudes. -/
def combine_hashes_hash_majority (hashes : List Nat) (hash_bits : Nat) : Nat :=
  if hashes.isEmpty then 0
  else
    let counts := (List.range hash_bits).map
      (fun i => (hashes.filter (fun h => bitSelected h (hash_bits - 1 - i))).length)
    counts.foldl (fun acc c => (acc <<< 1) ||| (if hashes.length ≤ 2 * c then 1 else 0)) 0

theorem combine_eq_packBits (hashes : List Nat) (hash_bits : Nat) (hne : hashes ≠ []) :
    combine_hashes_hash_majority hashes hash_bits =
      packBits ((List.range hash_bits).map (fun i =>
        decide (hashes.length ≤
          2 * (hashes.filter (fun h => bitSelected h (hash_bits - 1 - i))).length))) := by
  rw [combine_hashes_hash_majority, if_neg (by simpa using hne)]
  simp only [packBits, List.foldl_map]
  congr 1
  funext v i
  by_cases hP : hashes.length ≤
      2 * (hashes.filter (fun h => bitSelected h (hash_bits - 1 - i))).length
  · simp [hP]
  · simp [hP]

/-- C4: for a non-empty input list, output bit `i` (for `i < 64`) is set exactly
when at least half of the inputs have bit `i` set (ties round to set); in
particular two inputs disagreeing on a bit combine to 1, and three inputs of
which exactly one has the bit set combine to 0. -/
theorem combine_majority_bit :
    (∀ (hashes : List Nat), hashes ≠ [] → ∀ i, i < 64 →
        (combine_hashes_hash_majority hashes 64).testBit i =
          decide (hashes.length ≤ 2 * (hashes.filter (fun h => h.testBit i)).length)) ∧
    (∀ h1 h2 : Nat, ∀ i, i < 64 → h1.testBit i ≠ h2.testBit i →
        (combine_hashes_hash_majority [h1, h2] 64).testBit i = true) ∧
    (∀ h1 h2 h3 : Nat, ∀ i, i < 64 →
        h1.testBit i = true → h2.testBit i = false → h3.testBit i = false →
        (combine_hashes_hash_majority [h1, h2, h3] 64).testBit i = false) := by
  have hfun : ∀ i : Nat, (fun h : Nat => bitSelected h i) = (fun h : Nat => h.testBit i) :=
    fun i => funext fun h => bitSelected_eq_testBit h i
  have main : ∀ (hashes : List Nat), hashes ≠ [] → ∀ i, i < 64 →
      (combine_hashes_hash_majority hashes 64).testBit i =
        decide (hashes.length ≤ 2 * (hashes.filter (fun h => h.testBit i)).length) := by
    intro hashes hne i hi
    rw [combine_eq_packBits hashes 64 hne]
    have hlen : ((List.range 64).map (fun i =>
        decide (hashes.length ≤
          2 * (hashes.filter (fun h => bitSelected h (64 - 1 - i))).length))).length = 64 := by
      simp
    rw [packBits_testBit _ i (by rw [hlen]; omega), hlen]
    have hprev : 64 - 1 - i < 64 := by omega
    rw [List.getD_eq_getElem _ _ (by rw [hlen]; omega), List.getElem_map, List.getElem_range]
    have hii : 64 - 1 - (64 - 1 - i) = i := by omega
    rw [hii, hfun i]
  refine ⟨main, ?_, ?_⟩
  · intro h1 h2 i hi hne
    rw [main [h1, h2] (by simp) i hi]
    rcases Bool.eq_false_or_eq_true (h1.testBit i) with hb1 | hb1 <;>
      rcases Bool.eq_false_or_eq_true (h2.testBit i) with hb2 | hb2 <;>
      simp [List.filter_cons, hb1, hb2] at hne ⊢
  · intro h1 h2 h3 i hi hb1 hb2 hb3
    rw [main [h1, h2, h3] (by simp) i hi]
    simp [List.filter_cons, hb1, hb2, hb3]

/-- Witness for C4: inputs `[1, 2]` disagree on bit 0 and combine to 1 there;
of `[1, 2, 4]` only one has bit 0 set, and they combine to 0 there. -/
theorem combine_majority_bit_witness :
    (combine_hashes_hash_majority [1, 2] 64).testBit 0 = true ∧
      (combine_hashes_hash_majority [1, 2, 4] 64).testBit 0 = false :=
  ⟨combine_majority_bit.2.1 1 2 0 (by decide) (by decide),
   combine_majority_bit.2.2 1 2 4 0 (by decide) (by decide) (by decide) (by decide)⟩

/-- C7: combining the empty sequence of frame hashes returns 0, as a defined
result rather than an error (lines 109-110). -/
theorem combine_empty_eq_zero (hash_bits : Nat) :
    combine_hashes_hash_majority [] hash_bits = 0 := rfl

/-! ## Video frame sampling (lines 123-144) -/

/-- Frame-index sampler of `video_perceptual_hash` (lines 129-133): with a
positive reported frame count and a positive sample count, indices are
`i * step` for `i < sample_frames` with `step = max 1 (frame_count / sample_frames)`;
otherwise the index list is empty. -/
def sample_indices (frame_count : Nat) (sample_frames : Nat) : List Nat :=
  if frame_count > 0 ∧ sample_frames > 0 then
    let step := max 1 (frame_count / sample_frames)
    (List.range sample_frames).map (fun i => i * step)
  else []

/-- C6: for reported total frame count `T > 0` and sample count `S > 0` the
sampled indices are exactly `{ i * max 1 (T / S) : i < S }`; with `T = 0`
(zero or unknown count) or `S = 0`, no indices are sampled. -/
theorem sample_indices_spec (T S : Nat) :
    (T > 0 → S > 0 → ∀ x, x ∈ sample_indices T S ↔ ∃ i, i < S ∧ x = i * max 1 (T / S)) ∧
    sample_indices 0 S = [] ∧ sample_indices T 0 = [] := by
  refine ⟨?_, ?_, ?_⟩
  · intro hT hS x
    rw [sample_indices, if_pos ⟨hT, hS⟩]
    simp only [List.mem_map, List.mem_range]
    constructor
    · rintro ⟨i, hi, h⟩
      exact ⟨i, hi, h.symm⟩
    · rintro ⟨i, hi, h⟩
      exact ⟨i, hi, h.symm⟩
  · rw [sample_indices, if_neg (by omega)]
  · rw [sample_indices, if_neg (by omega)]

/-- Witness for C6: with 10 reported frames and 3 samples, index 3 = 1 * 3 is
sampled. -/
theorem sample_indices_spec_witness : 3 ∈ sample_indices 10 3 :=
  ((sample_indices_spec 10 3).1 (by decide) (by decide) 3).mpr ⟨1, by decide, by decide⟩

/-! ## Fingerprint strategy dispatcher (lines 42-46, 123-162) -/

/-- FingerprintResult dataclass (lines 42-46). -/
structure FingerprintResult where
  kind : String
  key : String
  detail : String
deriving DecidableEq, Repr

/-- Lowercase zero-padded 16-digit hex rendering, the Python format
`f"{vhash:016x}"` (line 159). -/
def format016x (n : Nat) : String :=
  let ds := Nat.toDigits 16 n
  String.mk (List.replicate (16 - ds.length) '0' ++ ds)

/-- Video perceptual hash (lines 123-144).  The OpenCV capture is the external
collaborator: `opened` is `cap.isOpened()` (false also covers a missing cv2
backend, which likewise returns `None`), `frame_count` the reported
`CAP_PROP_FRAME_COUNT` (0 when unknown), and `decode idx` the result of
seeking to `idx` and reading one frame, composed with the external grayscale
conversion and resize of `frame_ahash` (`none` when the read fails).  Failed
decodes are skipped; with no frame hash produced the result is `none`. -/
def video_perceptual_hash (opened : Bool) (frame_count : Nat) (sample_frames : Nat)
    (decode : Nat → Option (List (List Nat))) : Option Nat :=
  if !opened then none
  else
    let indices := sample_indices frame_count sample_frames
    let hashes := indices.filterMap (fun idx => (decode idx).map frame_ahash)
    if hashes.isEmpty then none
    else some (combine_hashes_hash_majority hashes 64)

/-- Outcome of `sha256_file` (lines 87-94): the SHA-256 hex digest computed by
the hashlib collaborator over the file's bytes, or the uncaught `OSError`
when the file cannot be opened or read (the function has no `try/except`). -/
def sha256_file (readOutcome : Option String) : Except String String :=
  match readOutcome with
  | some digest => Except.ok digest
  | none => Except.error ("unreadable")

/-- Strategy dispatcher `fingerprint_file` (lines 147-162).  Collaborator
outcomes for the file at hand are passed in: `fpcalcOutcome` is
`run_fpcalc(path)`'s return value (`none` both when the tool is missing and
when it fails or yields no fingerprint line, line 67-84), `vhashOutcome` is
`video_perceptual_hash`'s value, and `readOutcome` feeds the fallback
`sha256_file`.  The Python truthiness test `if fp:` is false for `None` and
for the empty string; a raised `OSError` from the fallback read propagates
as `Except.error`. -/
def fingerprint_file (ext : String) (kinds : List String)
    (fpcalcOutcome : Option String) (vhashOutcome : Option Nat)
    (readOutcome : Option String) : Except String FingerprintResult :=
  let audioResult : Option FingerprintResult :=
    if ext ∈ AUDIO_EXTS ∧ ("audio") ∈ kinds then
      match fpcalcOutcome with
      | some fp =>
          if fp.isEmpty then none
          else some ⟨"audio", fp, ("fpcalc:" ++ toString fp.length ++ "chars")⟩
      | none => none
    else none
  match audioResult with
  | some r => Except.ok r
  | none =>
    let videoResult : Option FingerprintResult :=
      if ext ∈ VIDEO_EXTS ∧ ("video") ∈ kinds then
        match vhashOutcome with
        | some v => some ⟨"video", ("vhash:" ++ format016x v), ("vhash:" ++ format016x v)⟩
        | none => none
      else none
    match videoResult with
    | some r => Except.ok r
    | none =>
      match sha256_file readOutcome with
      | Except.ok digest =>
          Except.ok ⟨"fallback", digest, ("sha256:" ++ digest.take 12 ++ "...")⟩
      | Except.error e => Except.error e

/-- C5: audio extension, audio kind enabled, and a non-empty fpcalc
fingerprint give kind `audio` with the fingerprint string as key, regardless
of the video kind and of the video/fallback collaborators. -/
theorem fingerprint_file_audio_priority (ext : String) (kinds : List String)
    (s : String) (vhashOutcome : Option Nat) (readOutcome : Option String)
    (ha : ext ∈ AUDIO_EXTS) (hk : ("audio") ∈ kinds) (hs : s ≠ "") :
    fingerprint_file ext kinds (some s) vhashOutcome readOutcome =
      Except.ok ⟨"audio", s, ("fpcalc:" ++ toString s.length ++ "chars")⟩ := by
  have hne : s.isEmpty = false := by
    cases hempty : s.isEmpty
    · rfl
    · exact absurd ((String.isEmpty_iff s).mp hempty) hs
  simp [fingerprint_file, ha, hk, hne]

/-- Witness for C5 on a concrete mp3 file with both kinds enabled and a
working video collaborator. -/
theorem fingerprint_file_audio_priority_witness :
    fingerprint_file (".mp3") ["audio", "video"] (some "AQAAZ") (some 7) (some "d") =
      Except.ok ⟨"audio", "AQAAZ", ("fpcalc:" ++ toString (String.length "AQAAZ") ++ "chars")⟩ :=
  fingerprint_file_audio_priority (".mp3") ["audio", "video"] "AQAAZ" (some 7) (some "d")
    (by decide) (by decide) (by decide)

theorem video_not_audio_ext (ext : String) (hv : ext ∈ VIDEO_EXTS) :
    ext ∉ AUDIO_EXTS := by
  fin_cases hv <;> decide

/-- C9: a reported total frame count of 0 makes the video strategy produce no
hash, and the dispatcher then falls through to the fallback exact-content
hash, whose key is the full hex digest of the file's bytes. -/
theorem zero_frames_falls_back_to_sha256 (ext : String) (kinds : List String)
    (fpcalcOutcome : Option String) (opened : Bool) (S : Nat)
    (decode : Nat → Option (List (List Nat))) (digest : String)
    (hv : ext ∈ VIDEO_EXTS) :
    video_perceptual_hash opened 0 S decode = none ∧
    fingerprint_file ext kinds fpcalcOutcome
        (video_perceptual_hash opened 0 S decode) (some digest) =
      Except.ok ⟨"fallback", digest, ("sha256:" ++ digest.take 12 ++ "...")⟩ := by
  have vnone : video_perceptual_hash opened 0 S decode = none := by
    cases opened <;> simp [video_perceptual_hash, sample_indices]
  refine ⟨vnone, ?_⟩
  simp [fingerprint_file, video_not_audio_ext ext hv, vnone, sha256_file]

/-- Witness for C9 on a concrete mp4 file whose capture reports 0 frames. -/
theorem zero_frames_falls_back_to_sha256_witness :
    video_perceptual_hash true 0 12 (fun _ => none) = none ∧
    fingerprint_file (".mp4") ["audio", "video"] none
        (video_perceptual_hash true 0 12 (fun _ => none)) (some "0123456789abcdef") =
      Except.ok ⟨"fallback", "0123456789abcdef",
        ("sha256:" ++ String.take "0123456789abcdef" 12 ++ "...")⟩ :=
  zero_frames_falls_back_to_sha256 (".mp4") ["audio", "video"] none true 12
    (fun _ => none) "0123456789abcdef" (by decide)

/-! ## Duplicate grouping engine (lines 165-171) -/

/-- One step of the accumulation loop of `find_duplicates` (line 169):
`groups[fp.key].append((p, fp))` on a `defaultdict(list)`.  A present key
keeps its position and gets the entry appended; a fresh key is added at the
end (Python dict insertion order). -/
def addToGroups :
    List (String × List (String × FingerprintResult)) →
    (String × FingerprintResult) →
    List (String × List (String × FingerprintResult))
  | [], e => [(e.2.key, [e])]
  | g :: rest, e =>
      if g.1 == e.2.key then (g.1, g.2 ++ [e]) :: rest
      else g :: addToGroups rest e

/-- Key column of the accumulated group dict. -/
def groupKeys (groups : List (String × List (String × FingerprintResult))) : List String :=
  groups.map Prod.fst

@[simp]
theorem groupKeys_nil : groupKeys [] = [] := rfl

@[simp]
theorem groupKeys_cons (g : String × List (String × FingerprintResult))
    (rest : List (String × List (String × FingerprintResult))) :
    groupKeys (g :: rest) = g.1 :: groupKeys rest := rfl

/-- Dict access `groups[k]` on the accumulated groups. -/
def lookupGroup (k : String) :
    List (String × List (String × FingerprintResult)) → List (String × FingerprintResult)
  | [] => []
  | g :: rest => if g.1 == k then g.2 else lookupGroup k rest

/-- Grouping stage of `find_duplicates` (lines 166-170) over already-computed
(file, FingerprintResult) pairs: accumulate by key in insertion order, then
keep only the groups with more than one member (line 170). -/
def group_dupes (pairs : List (String × FingerprintResult)) :
    List (String × List (String × FingerprintResult)) :=
  (pairs.foldl addToGroups []).filter (fun g => g.2.length > 1)

/-- Driver loop of `find_duplicates` (lines 165-171): fingerprint each file in
order and accumulate into groups; an exception raised while fingerprinting
one file (the unguarded fallback read of `sha256_file`) propagates and
aborts the whole loop. -/
def find_duplicates (fpOf : String → Except String FingerprintResult)
    (files : List String) :
    Except String (List (String × List (String × FingerprintResult))) :=
  match files.foldlM (fun acc p => (fpOf p).map (fun fp => addToGroups acc (p, fp))) [] with
  | Except.ok groups => Except.ok (groups.filter (fun g => g.2.length > 1))
  | Except.error e => Except.error e

theorem lookupGroup_addToGroups (groups : List (String × List (String × FingerprintResult)))
    (e : String × FingerprintResult) (k : String) :
    lookupGroup k (addToGroups groups e) =
      lookupGroup k groups ++ (if e.2.key == k then [e] else []) := by
  induction groups with
  | nil =>
    by_cases h : e.2.key = k <;> simp [addToGroups, lookupGroup, h]
  | cons g rest ih =>
    by_cases h1 : g.1 = e.2.key
    · by_cases h2 : g.1 = k
      · have : e.2.key = k := h1 ▸ h2
        simp [addToGroups, lookupGroup, h1, h2, this]
      · have hnk : ¬(e.2.key = k) := fun hh => h2 (h1.trans hh)
        simp [addToGroups, lookupGroup, h1, h2, hnk]
    · by_cases h2 : g.1 = k
      · have hnk : ¬(e.2.key = k) := fun hh => h1 (h2.trans hh.symm)
        have hkn : ¬(k = e.2.key) := fun hh => hnk hh.symm
        simp [addToGroups, lookupGroup, h1, h2, hnk, hkn]
      · simp [addToGroups, lookupGroup, h1, h2, ih]

theorem lookupGroup_foldl (pairs : List (String × FingerprintResult)) :
    ∀ (groups0 : List (String × List (String × FingerprintResult))) (k : String),
      lookupGroup k (pairs.foldl addToGroups groups0) =
        lookupGroup k groups0 ++ pairs.filter (fun e => e.2.key == k) := by
  induction pairs with
  | nil => intro groups0 k; simp
  | cons e rest ih =>
    intro groups0 k
    rw [List.foldl_cons, ih (addToGroups groups0 e) k, lookupGroup_addToGroups]
    by_cases h : e.2.key = k <;> simp [List.filter_cons, h]

theorem groupKeys_addToGroups (groups : List (String × List (String × FingerprintResult)))
    (e : String × FingerprintResult) :
    groupKeys (addToGroups groups e) =
      if e.2.key ∈ groupKeys groups then groupKeys groups
      else groupKeys groups ++ [e.2.key] := by
  induction groups with
  | nil => simp [addToGroups]
  | cons g rest ih =>
    by_cases h : g.1 = e.2.key
    · have hmem : e.2.key ∈ groupKeys (g :: rest) := by
        rw [groupKeys_cons]
        exact List.mem_cons.mpr (Or.inl h.symm)
      rw [if_pos hmem]
      have hstep : addToGroups (g :: rest) e = (g.1, g.2 ++ [e]) :: rest := by
        simp [addToGroups, h]
      rw [hstep, groupKeys_cons, groupKeys_cons]
    · have hstep : addToGroups (g :: rest) e = g :: addToGroups rest e := by
        simp [addToGroups, h]
      have hiff : e.2.key ∈ groupKeys (g :: rest) ↔ e.2.key ∈ groupKeys rest := by
        rw [groupKeys_cons]
        constructor
        · intro hm
          rcases List.mem_cons.mp hm with h' | h'
          · exact absurd h'.symm h
          · exact h'
        · exact fun hm => List.mem_cons.mpr (Or.inr hm)
      rw [hstep, groupKeys_cons, ih]
      by_cases hmem : e.2.key ∈ groupKeys rest
      · rw [if_pos hmem, if_pos (hiff.mpr hmem), groupKeys_cons]
      · rw [if_neg hmem, if_neg (fun hm => hmem (hiff.mp hm)), groupKeys_cons]
        rfl

theorem keys_nodup_foldl (pairs : List (String × FingerprintResult)) :
    ∀ (groups0 : List (String × List (String × FingerprintResult))),
      (groupKeys groups0).Nodup → (groupKeys (pairs.foldl addToGroups groups0)).Nodup := by
  induction pairs with
  | nil => intro groups0 h; simpa using h
  | cons e rest ih =>
    intro groups0 h
    rw [List.foldl_cons]
    apply ih
    rw [groupKeys_addToGroups]
    by_cases hmem : e.2.key ∈ groupKeys groups0
    · simpa [hmem] using h
    · simp [hmem, List.nodup_append, h]

theorem mem_eq_lookup (groups : List (String × List (String × FingerprintResult)))
    (hnd : (groupKeys groups).Nodup) (g : String × List (String × FingerprintResult))
    (hg : g ∈ groups) : g.2 = lookupGroup g.1 groups := by
  induction groups with
  | nil => simp at hg
  | cons hd rest ih =>
    rw [groupKeys_cons] at hnd
    obtain ⟨hnotin, hnd'⟩ := List.nodup_cons.mp hnd
    rcases List.mem_cons.mp hg with rfl | hg'
    · simp [lookupGroup]
    · have hkey : g.1 ∈ groupKeys rest := List.mem_map.mpr ⟨g, hg', rfl⟩
      have hhd : ¬(hd.1 = g.1) := fun hh => hnotin (hh ▸ hkey)
      simp [lookupGroup, hhd, ih hnd' hg']

/-- C8: a fingerprint key associated with exactly one file never appears in
the filtered duplicate-group output. -/
theorem singleton_key_not_in_dupes (pairs : List (String × FingerprintResult)) (k : String)
    (h1 : (pairs.filter (fun e => e.2.key == k)).length = 1) :
    k ∉ (group_dupes pairs).map Prod.fst := by
  intro hk
  rcases List.mem_map.mp hk with ⟨g, hg, hgk⟩
  have hg' := List.mem_filter.mp hg
  have hnd : (groupKeys (pairs.foldl addToGroups [])).Nodup :=
    keys_nodup_foldl pairs [] (by simp [groupKeys])
  have hlook := mem_eq_lookup _ hnd g hg'.1
  rw [lookupGroup_foldl pairs [] g.1] at hlook
  simp only [lookupGroup, List.nil_append] at hlook
  have hlen : g.2.length = 1 := by rw [hlook, hgk]; exact h1
  have hgt : g.2.length > 1 := by simpa using hg'.2
  omega

/-- Witness for C8: one lone file with key `k` produces no duplicate group
keyed `k`. -/
theorem singleton_key_not_in_dupes_witness :
    "k" ∉ (group_dupes [("a", ⟨"fallback", "k", "d"⟩)]).map Prod.fst :=
  singleton_key_not_in_dupes [("a", ⟨"fallback", "k", "d"⟩)] "k" (by decide)

/-- C2 (code bug): the second file is perfectly fingerprintable on its own,
yet with the first file unreadable the uncaught read error propagates out of
`find_duplicates` and the whole batch aborts with no groups at all. -/
theorem unreadable_file_aborts_batch :
    fingerprint_file (".txt") [] none none (some "d9a2") =
      Except.ok ⟨"fallback", "d9a2", ("sha256:" ++ String.take "d9a2" 12 ++ "...")⟩ ∧
    find_duplicates
        (fun p => fingerprint_file (".txt") [] none none
          (if p == "bad" then none else some "d9a2"))
        ["bad", "good"] = Except.error ("unreadable") := by
  constructor
  · rfl
  · rfl

/-! ## Report assembly (lines 174-180, 204-223) -/

/-- Python's `sorted(..., key=lambda kv: kv[0])`: stable sort by the string in
the first component (lines 176 and 178). -/
def sortByFirst {β : Type} (l : List (String × β)) : List (String × β) :=
  l.insertionSort (fun a b => a.1 ≤ b.1)

instance keyLeIsTotal {β : Type} :
    IsTotal (String × β) (fun a b => a.1 ≤ b.1) :=
  ⟨fun a b => le_total a.1 b.1⟩

instance keyLeIsTrans {β : Type} :
    IsTrans (String × β) (fun a b => a.1 ≤ b.1) :=
  ⟨fun _ _ _ h1 h2 => le_trans h1 h2⟩

theorem sortByFirst_sorted {β : Type} (l : List (String × β)) :
    (sortByFirst l).Sorted (fun a b => a.1 ≤ b.1) :=
  List.sorted_insertionSort _ l

theorem sortByFirst_perm {β : Type} (l : List (String × β)) :
    (sortByFirst l).Perm l :=
  List.perm_insertionSort _ l

/-- Two sorted-by-key lists that are permutations of each other and have no
repeated key are equal. -/
theorem sorted_key_nodup_eq {β : Type} :
    ∀ (l1 l2 : List (String × β)), l1.Perm l2 →
      l1.Sorted (fun a b => a.1 ≤ b.1) → l2.Sorted (fun a b => a.1 ≤ b.1) →
      (l1.map Prod.fst).Nodup → l1 = l2 := by
  intro l1
  induction l1 with
  | nil =>
    intro l2 hp _ _ _
    exact (hp.symm.eq_nil).symm ▸ rfl
  | cons a t1 ih =>
    intro l2 hp hs1 hs2 hnd
    cases l2 with
    | nil => exact absurd hp.eq_nil (by simp)
    | cons b t2 =>
      by_cases hab : a = b
      · subst hab
        have hp' : t1.Perm t2 := hp.cons_inv
        have hnd' : (t1.map Prod.fst).Nodup := by
          rw [List.map_cons] at hnd
          exact (List.nodup_cons.mp hnd).2
        rw [ih t2 hp' hs1.of_cons hs2.of_cons hnd']
      · exfalso
        have ha2 : a ∈ b :: t2 := hp.mem_iff.mp (List.mem_cons_self a t1)
        have ha2' : a ∈ t2 := by
          rcases List.mem_cons.mp ha2 with h | h
          · exact absurd h hab
          · exact h
        have hb1 : b ∈ a :: t1 := hp.mem_iff.mpr (List.mem_cons_self b t2)
        have hb1' : b ∈ t1 := by
          rcases List.mem_cons.mp hb1 with h | h
          · exact absurd h.symm hab
          · exact h
        have hab1 : a.1 ≤ b.1 := (List.sorted_cons.mp hs1).1 b hb1'
        have hba1 : b.1 ≤ a.1 := (List.sorted_cons.mp hs2).1 a ha2'
        have heq : a.1 = b.1 := le_antisymm hab1 hba1
        rw [List.map_cons] at hnd
        exact (List.nodup_cons.mp hnd).1 (heq ▸ List.mem_map.mpr ⟨b, hb1', rfl⟩)

theorem sortByFirst_eq_of_perm {β : Type} (l1 l2 : List (String × β))
    (hp : l1.Perm l2) (hnd : (l1.map Prod.fst).Nodup) :
    sortByFirst l1 = sortByFirst l2 := by
  apply sorted_key_nodup_eq
  · exact (sortByFirst_perm l1).trans (hp.trans (sortByFirst_perm l2).symm)
  · exact sortByFirst_sorted l1
  · exact sortByFirst_sorted l2
  · exact (((sortByFirst_perm l1).map Prod.fst).nodup_iff).mpr hnd

/-- One member line of the plain-text report (line 179). -/
def itemLine (it : String × FingerprintResult) : String :=
  "  - " ++ it.1 ++ " [" ++ it.2.kind ++ " " ++ it.2.detail ++ "]"

/-- One group's block of the plain-text report (lines 176-179): header with
the group size, then one line per member sorted by file identifier. -/
def renderGroup (g : String × List (String × FingerprintResult)) : List String :=
  ("hash=" ++ g.1 ++ " (x" ++ toString g.2.length ++ ")") ::
    (sortByFirst g.2).map itemLine

/-- Plain-text report `format_report` (lines 174-180): groups sorted by key,
blocks concatenated and joined with newlines. -/
def format_report (dupes : List (String × List (String × FingerprintResult))) : String :=
  String.intercalate ("\n") (((sortByFirst dupes).map renderGroup).flatten)

/-- JSON payload's `duplicates` field (lines 208-221 of `main`): groups are
listed in dict insertion order and members in accumulation order — no
sorting is applied on this path. -/
def json_duplicates (dupes : List (String × List (String × FingerprintResult))) :
    List (String × List (String × String × String)) :=
  dupes.map (fun g => (g.1, g.2.map (fun it => (it.1, it.2.kind, it.2.detail))))

/-- Rendering of a group whose member list is already sorted; `renderGroup`
factors through it. -/
def renderOfSorted (g : String × List (String × FingerprintResult)) : List String :=
  ("hash=" ++ g.1 ++ " (x" ++ toString g.2.length ++ ")") :: g.2.map itemLine

theorem renderGroup_factor (g : String × List (String × FingerprintResult)) :
    renderGroup g = renderOfSorted (g.1, sortByFirst g.2) := by
  have hlen : (sortByFirst g.2).length = g.2.length := (sortByFirst_perm g.2).length_eq
  simp [renderGroup, renderOfSorted, hlen]

theorem mem_addToGroups_keys (groups : List (String × List (String × FingerprintResult)))
    (e : String × FingerprintResult) (k : String) :
    k ∈ groupKeys (addToGroups groups e) ↔ k ∈ groupKeys groups ∨ k = e.2.key := by
  rw [groupKeys_addToGroups]
  by_cases hmem : e.2.key ∈ groupKeys groups
  · rw [if_pos hmem]
    constructor
    · exact Or.inl
    · rintro (h | rfl)
      · exact h
      · exact hmem
  · rw [if_neg hmem]
    simp [List.mem_append]

theorem mem_groupKeys_foldl (pairs : List (String × FingerprintResult)) :
    ∀ (groups0 : List (String × List (String × FingerprintResult))) (k : String),
      k ∈ groupKeys (pairs.foldl addToGroups groups0) ↔
        k ∈ groupKeys groups0 ∨ ∃ e ∈ pairs, e.2.key = k := by
  induction pairs with
  | nil => intro groups0 k; simp
  | cons e rest ih =>
    intro groups0 k
    rw [List.foldl_cons, ih (addToGroups groups0 e) k, mem_addToGroups_keys]
    constructor
    · rintro ((h | rfl) | ⟨e', he', hk⟩)
      · exact Or.inl h
      · exact Or.inr ⟨e, by simp, rfl⟩
      · exact Or.inr ⟨e', by simp [he'], hk⟩
    · rintro (h | ⟨e', he', hk⟩)
      · exact Or.inl (Or.inl h)
      · rcases List.mem_cons.mp he' with rfl | he''
        · exact Or.inl (Or.inr hk.symm)
        · exact Or.inr ⟨e', he'', hk⟩

theorem dupes_entry (pairs : List (String × FingerprintResult))
    (g : String × List (String × FingerprintResult)) (hg : g ∈ group_dupes pairs) :
    g ∈ pairs.foldl addToGroups [] ∧
      g.2 = pairs.filter (fun e => e.2.key == g.1) ∧ 1 < g.2.length := by
  have h := List.mem_filter.mp hg
  refine ⟨h.1, ?_, by simpa using h.2⟩
  have hnd := keys_nodup_foldl pairs [] (by simp)
  have hval := mem_eq_lookup _ hnd g h.1
  rw [lookupGroup_foldl pairs [] g.1] at hval
  simpa [lookupGroup] using hval

theorem dupes_keys_nodup (pairs : List (String × FingerprintResult)) :
    (groupKeys (group_dupes pairs)).Nodup := by
  have hnd := keys_nodup_foldl pairs [] (by simp)
  have hsub : (group_dupes pairs).Sublist (pairs.foldl addToGroups []) :=
    List.filter_sublist _
  exact List.Nodup.sublist (List.Sublist.map Prod.fst hsub) hnd

theorem mem_groupKeys_dupes (pairs : List (String × FingerprintResult)) (k : String) :
    k ∈ groupKeys (group_dupes pairs) ↔
      1 < (pairs.filter (fun e => e.2.key == k)).length := by
  constructor
  · intro hk
    rcases List.mem_map.mp hk with ⟨g, hg, rfl⟩
    obtain ⟨_, hval, hlen⟩ := dupes_entry pairs g hg
    rw [← hval]
    exact hlen
  · intro hlen
    have hne : pairs.filter (fun e => e.2.key == k) ≠ [] := by
      intro h
      rw [h] at hlen
      simp at hlen
    obtain ⟨e, he⟩ := List.exists_mem_of_ne_nil _ hne
    have hef := List.mem_filter.mp he
    have hkmem : k ∈ groupKeys (pairs.foldl addToGroups []) := by
      rw [mem_groupKeys_foldl pairs [] k]
      exact Or.inr ⟨e, hef.1, by simpa using hef.2⟩
    rcases List.mem_map.mp hkmem with ⟨g, hg, rfl⟩
    have hnd := keys_nodup_foldl pairs [] (by simp)
    have hval := mem_eq_lookup _ hnd g hg
    rw [lookupGroup_foldl pairs [] g.1] at hval
    simp only [lookupGroup, List.nil_append] at hval
    apply List.mem_map.mpr
    refine ⟨g, ?_, rfl⟩
    apply List.mem_filter.mpr
    refine ⟨hg, ?_⟩
    have : 1 < g.2.length := by rw [hval]; exact hlen
    simpa using this

theorem mem_mapped_dupes (pairs : List (String × FingerprintResult))
    (x : String × List (String × FingerprintResult)) :
    x ∈ (group_dupes pairs).map (fun g => (g.1, sortByFirst g.2)) ↔
      1 < (pairs.filter (fun e => e.2.key == x.1)).length ∧
        x.2 = sortByFirst (pairs.filter (fun e => e.2.key == x.1)) := by
  constructor
  · intro hx
    rcases List.mem_map.mp hx with ⟨g, hg, rfl⟩
    obtain ⟨_, hval, hlen⟩ := dupes_entry pairs g hg
    refine ⟨?_, ?_⟩
    · show 1 < (pairs.filter (fun e => e.2.key == g.1)).length
      rw [← hval]
      exact hlen
    · show sortByFirst g.2 = sortByFirst (pairs.filter (fun e => e.2.key == g.1))
      rw [hval]
  · rintro ⟨hlen, hval⟩
    have hk : x.1 ∈ groupKeys (group_dupes pairs) :=
      (mem_groupKeys_dupes pairs x.1).mpr hlen
    rcases List.mem_map.mp hk with ⟨g, hg, hg1⟩
    obtain ⟨_, hval', _⟩ := dupes_entry pairs g hg
    apply List.mem_map.mpr
    refine ⟨g, hg, ?_⟩
    cases x with
    | mk x1 x2 =>
      have hg1' : g.1 = x1 := hg1
      have h2 : sortByFirst g.2 = x2 := by
        rw [hval', hg1']
        exact hval.symm
      rw [hg1', h2]

/-- C3 (amended): re-running grouping and plain-text reporting on a permuted
input yields the identical report — groups sorted lexicographically by key,
entries within a group sorted lexicographically by file identifier — when
file identifiers are pairwise distinct (as a directory scan produces).  The
JSON rendering follows accumulation order instead (see the counterexample). -/
theorem format_report_perm_invariant (pairs1 pairs2 : List (String × FingerprintResult))
    (hperm : pairs1.Perm pairs2) (hnd1 : (pairs1.map Prod.fst).Nodup) :
    format_report (group_dupes pairs1) = format_report (group_dupes pairs2) := by
  have hfilters : ∀ k : String,
      sortByFirst (pairs1.filter (fun e => e.2.key == k)) =
        sortByFirst (pairs2.filter (fun e => e.2.key == k)) := by
    intro k
    apply sortByFirst_eq_of_perm
    · exact hperm.filter _
    · exact List.Nodup.sublist (List.Sublist.map Prod.fst (List.filter_sublist _)) hnd1
  have hlenf : ∀ k : String,
      (pairs1.filter (fun e => e.2.key == k)).length =
        (pairs2.filter (fun e => e.2.key == k)).length :=
    fun k => (hperm.filter _).length_eq
  have hmk1 : ((group_dupes pairs1).map (fun g => (g.1, sortByFirst g.2))).map Prod.fst =
      groupKeys (group_dupes pairs1) := by
    rw [List.map_map]
    exact List.map_congr_left (fun g _ => rfl)
  have hmk2 : ((group_dupes pairs2).map (fun g => (g.1, sortByFirst g.2))).map Prod.fst =
      groupKeys (group_dupes pairs2) := by
    rw [List.map_map]
    exact List.map_congr_left (fun g _ => rfl)
  have hnodup1 : ((group_dupes pairs1).map (fun g => (g.1, sortByFirst g.2))).Nodup :=
    List.Nodup.of_map Prod.fst (by rw [hmk1]; exact dupes_keys_nodup pairs1)
  have hnodup2 : ((group_dupes pairs2).map (fun g => (g.1, sortByFirst g.2))).Nodup :=
    List.Nodup.of_map Prod.fst (by rw [hmk2]; exact dupes_keys_nodup pairs2)
  have hmid : ((group_dupes pairs1).map (fun g => (g.1, sortByFirst g.2))).Perm
      ((group_dupes pairs2).map (fun g => (g.1, sortByFirst g.2))) := by
    rw [List.perm_ext_iff_of_nodup hnodup1 hnodup2]
    intro x
    rw [mem_mapped_dupes pairs1 x, mem_mapped_dupes pairs2 x, hlenf x.1, hfilters x.1]
  have hbig : (sortByFirst (group_dupes pairs1)).map (fun g => (g.1, sortByFirst g.2)) =
      (sortByFirst (group_dupes pairs2)).map (fun g => (g.1, sortByFirst g.2)) := by
    apply sorted_key_nodup_eq
    · exact ((sortByFirst_perm _).map _).trans
        (hmid.trans ((sortByFirst_perm _).map _).symm)
    · exact List.Pairwise.map _ (fun a b h => h) (sortByFirst_sorted (group_dupes pairs1))
    · exact List.Pairwise.map _ (fun a b h => h) (sortByFirst_sorted (group_dupes pairs2))
    · have hpp := (((sortByFirst_perm (group_dupes pairs1)).map
        (fun g => (g.1, sortByFirst g.2))).map Prod.fst)
      rw [List.Perm.nodup_iff hpp, hmk1]
      exact dupes_keys_nodup pairs1
  have hfact : ∀ (l : List (String × List (String × FingerprintResult))),
      l.map renderGroup = (l.map (fun g => (g.1, sortByFirst g.2))).map renderOfSorted := by
    intro l
    rw [List.map_map]
    exact List.map_congr_left (fun g _ => renderGroup_factor g)
  unfold format_report
  rw [hfact, hfact, hbig]

/-- C3 counterexample: two files sharing one fingerprint key, fed in the two
orders.  The grouping stage and the JSON rendering keep accumulation order,
so the structured rendering differs between the permuted runs (its entries
are not sorted by file identifier), refuting the claim for the JSON path. -/
theorem json_order_counterexample :
    ([("b", ⟨"fallback", "k", "d"⟩), ("a", ⟨"fallback", "k", "d"⟩)] :
        List (String × FingerprintResult)).Perm
      [("a", ⟨"fallback", "k", "d"⟩), ("b", ⟨"fallback", "k", "d"⟩)] ∧
    json_duplicates
        (group_dupes [("a", ⟨"fallback", "k", "d"⟩), ("b", ⟨"fallback", "k", "d"⟩)]) ≠
      json_duplicates
        (group_dupes [("b", ⟨"fallback", "k", "d"⟩), ("a", ⟨"fallback", "k", "d"⟩)]) := by
  constructor
  · decide
  · decide

/-- Witness for C3 (amended) on a concrete two-file permutation. -/
theorem format_report_perm_invariant_witness :
    format_report (group_dupes [("a", ⟨"fallback", "k", "d"⟩), ("b", ⟨"fallback", "k", "d"⟩)]) =
      format_report (group_dupes [("b", ⟨"fallback", "k", "d"⟩), ("a", ⟨"fallback", "k", "d"⟩)]) :=
  format_report_perm_invariant
    [("a", ⟨"fallback", "k", "d"⟩), ("b", ⟨"fallback", "k", "d"⟩)]
    [("b", ⟨"fallback", "k", "d"⟩), ("a", ⟨"fallback", "k", "d"⟩)]
    (by decide) (by decide)
